import Mathlib

/-
Verification of the annotation geometry and state engine of the
AnnotaPDF highlighter (src/js/app.js).

Numbers that are IEEE doubles in the source are modelled as exact
rationals (ℚ); the source performs no rounding in any of the modelled
operations, so every identity proved here exactly is the "within
floating point epsilon" identity of the source.

JS arrays used as stacks (`history`, `future`) are modelled top-first:
`arr.push(x)` onto the end is `x :: ·`, `arr.pop()` takes the head,
and `arr.shift()` — which evicts the oldest entry — is `List.dropLast`.
`JSON.parse(JSON.stringify(·))` deep clones are value copies, which is
what a Lean `List` already is.
-/

namespace AnnotaPDF

/-- `MAX_HISTORY_STEPS = 50` — undo stack limit (app.js line 40). -/
def MAX_HISTORY_STEPS : Nat := 50

/-- `MIN_HIGHLIGHT_PX = 5` — minimum rect size to register a highlight (app.js line 41). -/
def MIN_HIGHLIGHT_PX : ℚ := 5

/-- `PDF_RENDER_SCALE = 1.5` — default display scale (app.js line 38). -/
def PDF_RENDER_SCALE : ℚ := 3 / 2

/-- One stored highlight rectangle (the objects pushed by `onPointerUp`,
app.js lines 652-658). -/
structure Highlight where
  id : Nat
  page : Nat
  x : ℚ
  y : ℚ
  w : ℚ
  h : ℚ
  color : String
  opacity : Nat
deriving DecidableEq, Repr

/-- The per-document state of `class TabState` (app.js lines 69-99),
restricted to the fields the annotation engine reads or writes.
`history` and `future` are stacks of deep-cloned highlight arrays,
modelled top-first (see the file header). -/
structure Tab where
  id : Nat
  name : String
  currentPage : Nat
  totalPages : Nat
  scale : ℚ
  baseScale : ℚ
  rotation : Int
  highlights : List Highlight
  history : List (List Highlight)
  future : List (List Highlight)
deriving DecidableEq, Repr

/-- The `TabState` constructor (app.js lines 75-93). -/
def mkTab (id : Nat) (name : String) : Tab :=
  { id := id
    name := name
    currentPage := 1
    totalPages := 1
    scale := PDF_RENDER_SCALE
    baseScale := PDF_RENDER_SCALE
    rotation := 0
    highlights := []
    history := []
    future := [] }

instance : Inhabited Tab := ⟨mkTab 0 ""⟩

/-- `pushHistory(tab)` (app.js lines 708-712): push a deep clone of the
current highlights, clear the redo stack, and if the stack now exceeds
`MAX_HISTORY_STEPS`, evict the oldest entry (`shift()`, here
`dropLast` in the top-first model). -/
def pushHistory (t : Tab) : Tab :=
  let hist := t.highlights :: t.history
  { t with
      history := if MAX_HISTORY_STEPS < hist.length then hist.dropLast else hist
      future := [] }

/-- `undo()` (app.js lines 714-722), restricted to the active tab it
mutates: a no-op when the undo stack is empty, otherwise the current
highlights are cloned onto the redo stack and the top undo entry is
popped into `highlights`. -/
def undo (t : Tab) : Tab :=
  match t.history with
  | [] => t
  | top :: rest =>
      { t with
          future := t.highlights :: t.future
          highlights := top
          history := rest }

/-- `redo()` (app.js lines 724-732): symmetric to `undo`; note it pushes
onto `history` without the `MAX_HISTORY_STEPS` trim. -/
def redo (t : Tab) : Tab :=
  match t.future with
  | [] => t
  | top :: rest =>
      { t with
          history := t.highlights :: t.history
          highlights := top
          future := rest }

/-- The highlight-creating path of `onPointerUp` (app.js lines 633-663):
normalize the dragged rectangle, reject it when either side is under
`MIN_HIGHLIGHT_PX`, otherwise record history and append a highlight
whose `id` is the `Date.now()` reading, passed here as `now`. -/
def addHighlight (t : Tab) (sx sy px py : ℚ) (color : String)
    (opacity : Nat) (now : Nat) : Tab :=
  let x := min sx px
  let y := min sy py
  let w := |px - sx|
  let h := |py - sy|
  if w < MIN_HIGHLIGHT_PX ∨ h < MIN_HIGHLIGHT_PX then t
  else
    let t1 := pushHistory t
    { t1 with
        highlights := t1.highlights ++
          [{ id := now
             page := t.currentPage
             x := x
             y := y
             w := w
             h := h
             color := color
             opacity := opacity }] }

/-- The boundary-inclusive point-in-box test of `eraseAt`
(app.js line 677): `cx >= h.x && cx <= h.x + h.w && cy >= h.y && cy <= h.y + h.h`. -/
def containsPt (hl : Highlight) (cx cy : ℚ) : Bool :=
  decide (hl.x ≤ cx) && decide (cx ≤ hl.x + hl.w) &&
  decide (hl.y ≤ cy) && decide (cy ≤ hl.y + hl.h)

/-- `eraseAt(cx, cy)` (app.js lines 670-684): keep a highlight when it is
on another page or the point misses its box. Note: no `pushHistory`. -/
def eraseAt (t : Tab) (cx cy : ℚ) : Tab :=
  { t with
      highlights := t.highlights.filter fun hl =>
        decide (hl.page ≠ t.currentPage) || !(containsPt hl cx cy) }

/-- `deleteHighlight(id)` (app.js lines 690-698): record history, then
drop every highlight whose id matches. -/
def deleteHighlight (t : Tab) (hid : Nat) : Tab :=
  let t1 := pushHistory t
  { t1 with highlights := t1.highlights.filter fun hl => decide (hl.id ≠ hid) }

/-- The `clear-page-btn` click handler (app.js lines 1160-1167): record
history, then drop every highlight of the current page. -/
def clearCurrentPage (t : Tab) : Tab :=
  let t1 := pushHistory t
  { t1 with
      highlights := t1.highlights.filter fun hl =>
        decide (hl.page ≠ t.currentPage) }

/-- `setScale(newScale)` (app.js lines 743-759), state effect on the tab:
every stored highlight is multiplied by `newScale / tab.scale`, then
`tab.scale` is updated (label drawing omitted). -/
def setScale (t : Tab) (newScale : ℚ) : Tab :=
  let r := newScale / t.scale
  { t with
      highlights := t.highlights.map fun hl =>
        { hl with x := hl.x * r, y := hl.y * r, w := hl.w * r, h := hl.h * r }
      scale := newScale }

/-- Rotation direction, the `'cw' | 'ccw'` argument of `rotate`. -/
inductive Dir where
  | cw
  | ccw
deriving DecidableEq, Repr

/-- The per-highlight remap inside `rotate` (app.js lines 808-822), with
`oldW`/`oldH` the canvas extents captured before the turn. -/
def rotateHighlight (dir : Dir) (oldW oldH : ℚ) (hl : Highlight) : Highlight :=
  match dir with
  | .cw => { hl with x := oldH - hl.y - hl.h, y := hl.x, w := hl.h, h := hl.w }
  | .ccw => { hl with x := hl.y, y := oldW - hl.x - hl.w, w := hl.h, h := hl.w }

/-- `rotate(dir)` (app.js lines 800-826), state effect on the tab. -/
def rotate (t : Tab) (dir : Dir) (oldW oldH : ℚ) : Tab :=
  { t with
      rotation := (t.rotation + (if dir = Dir.cw then 90 else -90) + 360) % 360
      highlights := t.highlights.map (rotateHighlight dir oldW oldH) }

/-- The page-jump prompt handler (app.js lines 847-862), state effect:
out-of-range page numbers are rejected, in-range ones stored. -/
def gotoPage (t : Tab) (n : Nat) : Tab :=
  if n < 1 ∨ t.totalPages < n then t else { t with currentPage := n }

/-- The closed set of tab-state operations the UI event handlers can
invoke on the active tab. -/
inductive Op where
  | add (sx sy px py : ℚ) (color : String) (opacity : Nat) (now : Nat)
  | erase (cx cy : ℚ)
  | delete (hid : Nat)
  | clearCur
  | undoOp
  | redoOp
  | scale (s : ℚ)
  | rot (dir : Dir) (oldW oldH : ℚ)
  | goto (n : Nat)

/-- Dispatch of one operation to its handler. -/
def applyOp (t : Tab) : Op → Tab
  | .add sx sy px py c o now => addHighlight t sx sy px py c o now
  | .erase cx cy => eraseAt t cx cy
  | .delete hid => deleteHighlight t hid
  | .clearCur => clearCurrentPage t
  | .undoOp => undo t
  | .redoOp => redo t
  | .scale s => setScale t s
  | .rot dir oldW oldH => rotate t dir oldW oldH
  | .goto n => gotoPage t n

/-- A whole interaction session: the operations applied in order. -/
def applyOps (t : Tab) (ops : List Op) : Tab :=
  ops.foldl applyOp t

/-- A sequence of history record calls: each entry of `snaps` is the
value `tab.highlights` holds when the next `pushHistory` runs, exactly
as the mutating handlers arrange before invoking it. -/
def recordAll (t : Tab) (snaps : List (List Highlight)) : Tab :=
  snaps.foldl (fun acc s => pushHistory { acc with highlights := s }) t

/-- One pointer-up highlight creation: the drag endpoints, the active
color and opacity, and the `Date.now()` reading at that moment. -/
structure AddEv where
  sx : ℚ
  sy : ℚ
  px : ℚ
  py : ℚ
  color : String
  opacity : Nat
  now : Nat

/-- A sequence of highlight creations applied in order. -/
def applyAdds (t : Tab) (evs : List AddEv) : Tab :=
  evs.foldl (fun acc e => addHighlight acc e.sx e.sy e.px e.py e.color e.opacity e.now) t

/-- The inductive bound behind the history-size invariant: undo and redo
only move snapshots between the two stacks, so their combined size never
exceeds the limit. -/
def histBound (t : Tab) : Prop :=
  t.history.length + t.future.length ≤ MAX_HISTORY_STEPS

/-- A non-degenerate rectangle: strictly positive width and height. -/
def goodHighlight (hl : Highlight) : Prop :=
  0 < hl.w ∧ 0 < hl.h

/-- The tab-wide positivity invariant: the scale is positive and every
highlight — live or snapshotted on either stack — is non-degenerate. -/
def goodTab (t : Tab) : Prop :=
  0 < t.scale ∧
  (∀ hl ∈ t.highlights, goodHighlight hl) ∧
  (∀ s ∈ t.history, ∀ hl ∈ s, goodHighlight hl) ∧
  (∀ s ∈ t.future, ∀ hl ∈ s, goodHighlight hl)

/-- The caller-enforced precondition of each operation: the zoom
handlers only ever pass positive scales (clamped to `[0.25, 5]`). -/
def Op.valid : Op → Prop
  | .scale s => 0 < s
  | _ => True

/-- The session registry: the `tabs` array and the `activeTabId` global
(app.js lines 47-48). -/
structure Registry where
  tabs : List Tab
  activeTabId : Option Nat
deriving DecidableEq, Repr

/-- `activateTab(id)` (app.js lines 363-375), state effect on the
registry: it sets the active pointer. Its `setScale(tab.scale, false)`
call rewrites each highlight of the activated tab by the ratio
`tab.scale / tab.scale = 1`, the identity for the nonzero scales the
app maintains; the rest of the handler is DOM and rendering work. -/
def activateTab (reg : Registry) (i : Nat) : Registry :=
  { reg with activeTabId := some i }

/-- `closeTab(id)` (app.js lines 381-403): unknown ids are ignored;
otherwise the tab is spliced out, and if none remain the active pointer
is cleared, else the tab now at index `min idx (tabs.length - 1)` is
activated. -/
def closeTab (reg : Registry) (i : Nat) : Registry :=
  match reg.tabs.findIdx? (fun t => t.id == i) with
  | none => reg
  | some idx =>
      let tabs' := reg.tabs.eraseIdx idx
      if tabs'.length = 0 then
        { reg with tabs := tabs', activeTabId := none }
      else
        activateTab { reg with tabs := tabs' }
          (tabs'.getD (min idx (tabs'.length - 1)) default).id

end AnnotaPDF

namespace AnnotaPDF

/-- `undo` is a no-op when the undo stack is empty. -/
theorem undo_of_history_nil (t : Tab) (h : t.history = []) : undo t = t := by
  obtain ⟨id, name, cp, tp, sc, bs, rot, hls, hist, fut⟩ := t
  simp only at h
  subst h
  simp [undo]

/-- `redo` is a no-op when the redo stack is empty. -/
theorem redo_of_future_nil (t : Tab) (h : t.future = []) : redo t = t := by
  obtain ⟨id, name, cp, tp, sc, bs, rot, hls, hist, fut⟩ := t
  simp only at h
  subst h
  simp [redo]

/-- C1: applying the clockwise 90° remap with prior extents `(W, H)` and
then the counter-clockwise remap with the post-rotation extents
`(H, W)` is the identity on every highlight rectangle — exactly over ℚ,
hence within any epsilon — both per rectangle and on a tab's whole
highlight list as `rotate` applies it. -/
theorem rotate_cw_ccw_roundtrip :
    (∀ (hl : Highlight) (W H : ℚ),
      rotateHighlight Dir.ccw H W (rotateHighlight Dir.cw W H hl) = hl) ∧
    (∀ (t : Tab) (W H : ℚ),
      (rotate (rotate t Dir.cw W H) Dir.ccw H W).highlights = t.highlights) := by
  have hpt : ∀ (hl : Highlight) (W H : ℚ),
      rotateHighlight Dir.ccw H W (rotateHighlight Dir.cw W H hl) = hl := by
    intro hl W H
    cases hl
    simp [rotateHighlight]
    ring
  refine ⟨hpt, ?_⟩
  intro t W H
  simp [rotate, List.map_map, Function.comp_def, hpt]

/-- C2: rescaling a tab from its scale `s1` to any `s2` and back,
exactly as `setScale` multiplies every stored highlight field by the
scale ratio, is the identity — exact, with no rounding anywhere. -/
theorem setScale_roundtrip (t : Tab) (s2 : ℚ)
    (h1 : 0 < t.scale) (h2 : 0 < s2) :
    setScale (setScale t s2) t.scale = t := by
  obtain ⟨id, name, cp, tp, sc, bs, rot, hls, hist, fut⟩ := t
  simp only [setScale, List.map_map]
  simp only at h1
  congr 1
  refine (List.map_congr_left ?_).trans (List.map_id _)
  intro hl _
  obtain ⟨hid, hpg, hx, hy, hw, hh, hc, ho⟩ := hl
  simp only [Function.comp_def, id_eq, Highlight.mk.injEq, and_true, true_and]
  field_simp

/-- C2 witness: the round trip evaluated on a concrete tab. -/
theorem setScale_roundtrip_witness :
    setScale
      (setScale
        { mkTab 1 "doc" with
            highlights := [{ id := 7, page := 1, x := 10, y := 10, w := 20,
                             h := 20, color := "yellow", opacity := 100 }] } 3)
      (mkTab 1 "doc").scale =
    { mkTab 1 "doc" with
        highlights := [{ id := 7, page := 1, x := 10, y := 10, w := 20,
                         h := 20, color := "yellow", opacity := 100 }] } :=
  setScale_roundtrip _ 3 (by norm_num [mkTab, PDF_RENDER_SCALE]) (by norm_num)

/-- C5: `redo` immediately after a successful `undo` restores the entire
pre-undo state (in particular the highlight sequence); `undo` on an empty
undo stack and `redo` on an empty redo stack are exact no-ops. -/
theorem undo_redo_inverse :
    (∀ t : Tab, t.history ≠ [] → redo (undo t) = t) ∧
    (∀ t : Tab, t.history = [] → undo t = t) ∧
    (∀ t : Tab, t.future = [] → redo t = t) := by
  refine ⟨?_, ?_, ?_⟩
  · intro t hne
    match h : t.history with
    | [] => exact absurd h hne
    | top :: rest =>
        obtain ⟨id, name, cp, tp, sc, bs, rot, hls, hist, fut⟩ := t
        simp only at h
        subst h
        simp [undo, redo]
  · exact undo_of_history_nil
  · exact redo_of_future_nil

/-- C5 witness: the three clauses evaluated on concrete tabs. -/
theorem undo_redo_inverse_witness :
    (redo (undo { mkTab 1 "doc" with history := [[]] }) =
      { mkTab 1 "doc" with history := [[]] }) ∧
    undo (mkTab 1 "doc") = mkTab 1 "doc" ∧
    redo (mkTab 1 "doc") = mkTab 1 "doc" :=
  ⟨undo_redo_inverse.1 _ (by simp),
   undo_redo_inverse.2.1 _ rfl,
   undo_redo_inverse.2.2 _ rfl⟩

/-- `pushHistory` keeps the highlights themselves untouched. -/
theorem pushHistory_highlights (t : Tab) : (pushHistory t).highlights = t.highlights := rfl

/-- `pushHistory` empties the redo stack. -/
theorem pushHistory_future (t : Tab) : (pushHistory t).future = [] := rfl

/-- What `pushHistory` does to the undo stack: the new snapshot goes on
top and, exactly when the stack was already full, the oldest entry is
evicted. -/
theorem pushHistory_history (t : Tab) :
    (pushHistory t).history =
      t.highlights ::
        (if MAX_HISTORY_STEPS ≤ t.history.length then t.history.dropLast
         else t.history) := by
  simp only [pushHistory, List.length_cons]
  by_cases h : MAX_HISTORY_STEPS < t.history.length + 1
  · rw [if_pos h]
    have hlen : MAX_HISTORY_STEPS ≤ t.history.length := by omega
    rw [if_pos hlen]
    obtain ⟨b, l, hbl⟩ : ∃ b l, t.history = b :: l := by
      cases hht : t.history with
      | nil =>
          exfalso
          rw [hht] at hlen
          simp [MAX_HISTORY_STEPS] at hlen
      | cons b l => exact ⟨b, l, rfl⟩
    rw [hbl, List.dropLast_cons₂]
  · rw [if_neg h, if_neg (by omega)]

/-- `undo` on a tab with a nonempty undo stack restores the top snapshot. -/
theorem undo_highlights_of_history (t : Tab) (top : List Highlight)
    (rest : List (List Highlight)) (h : t.history = top :: rest) :
    (undo t).highlights = top := by
  obtain ⟨id, name, cp, tp, sc, bs, rot, hls, hist, fut⟩ := t
  simp only at h
  subst h
  simp [undo]

/-- C7: `eraseAt` removes a stored highlight exactly when it lies on the
current page and the point is inside its box, boundaries included; every
such highlight goes in the one call, and highlights of other pages are
never touched. -/
theorem eraseAt_mem_spec (t : Tab) (cx cy : ℚ) (hl : Highlight)
    (hmem : hl ∈ t.highlights) :
    (hl.page = t.currentPage →
      (hl ∉ (eraseAt t cx cy).highlights ↔
        hl.x ≤ cx ∧ cx ≤ hl.x + hl.w ∧ hl.y ≤ cy ∧ cy ≤ hl.y + hl.h)) ∧
    (hl.page ≠ t.currentPage → hl ∈ (eraseAt t cx cy).highlights) := by
  constructor
  · intro hpage
    simp [eraseAt, List.mem_filter, hmem, containsPt, hpage]
    tauto
  · intro hpage
    simp [eraseAt, List.mem_filter, hmem, hpage]

/-- C7 witness: on a concrete tab, the highlight of page 1 containing
the point (5,5) is removed and the page-2 highlight survives. -/
theorem eraseAt_mem_spec_witness :
    (⟨1, 1, 0, 0, 10, 10, "yellow", 100⟩ : Highlight).page =
        ({ mkTab 1 "doc" with
            highlights := [⟨1, 1, 0, 0, 10, 10, "yellow", 100⟩,
                           ⟨2, 2, 0, 0, 10, 10, "green", 100⟩] } : Tab).currentPage ∧
    ((⟨1, 1, 0, 0, 10, 10, "yellow", 100⟩ : Highlight) ∉
      (eraseAt
        { mkTab 1 "doc" with
            highlights := [⟨1, 1, 0, 0, 10, 10, "yellow", 100⟩,
                           ⟨2, 2, 0, 0, 10, 10, "green", 100⟩] } 5 5).highlights ↔
      ((⟨1, 1, 0, 0, 10, 10, "yellow", 100⟩ : Highlight).x ≤ 5 ∧
        (5 : ℚ) ≤ (⟨1, 1, 0, 0, 10, 10, "yellow", 100⟩ : Highlight).x +
          (⟨1, 1, 0, 0, 10, 10, "yellow", 100⟩ : Highlight).w ∧
        (⟨1, 1, 0, 0, 10, 10, "yellow", 100⟩ : Highlight).y ≤ 5 ∧
        (5 : ℚ) ≤ (⟨1, 1, 0, 0, 10, 10, "yellow", 100⟩ : Highlight).y +
          (⟨1, 1, 0, 0, 10, 10, "yellow", 100⟩ : Highlight).h)) ∧
    (⟨2, 2, 0, 0, 10, 10, "green", 100⟩ : Highlight) ∈
      (eraseAt
        { mkTab 1 "doc" with
            highlights := [⟨1, 1, 0, 0, 10, 10, "yellow", 100⟩,
                           ⟨2, 2, 0, 0, 10, 10, "green", 100⟩] } 5 5).highlights := by
  refine ⟨by decide, ?_, ?_⟩
  · exact (eraseAt_mem_spec
      { mkTab 1 "doc" with
          highlights := [⟨1, 1, 0, 0, 10, 10, "yellow", 100⟩,
                         ⟨2, 2, 0, 0, 10, 10, "green", 100⟩] } 5 5
      ⟨1, 1, 0, 0, 10, 10, "yellow", 100⟩ (by decide)).1 (by decide)
  · exact (eraseAt_mem_spec
      { mkTab 1 "doc" with
          highlights := [⟨1, 1, 0, 0, 10, 10, "yellow", 100⟩,
                         ⟨2, 2, 0, 0, 10, 10, "green", 100⟩] } 5 5
      ⟨2, 2, 0, 0, 10, 10, "green", 100⟩ (by decide)).2 (by decide)

/-- C10: `deleteHighlight` with an id no stored highlight has still
pushes a snapshot identical to the current highlights onto the undo
stack and destroys the redo stack, while the highlight sequence itself
is unchanged. -/
theorem deleteHighlight_missing_id (t : Tab) (hid : Nat)
    (h : ∀ hl ∈ t.highlights, hl.id ≠ hid) :
    (deleteHighlight t hid).highlights = t.highlights ∧
    (deleteHighlight t hid).future = [] ∧
    (deleteHighlight t hid).history.head? = some t.highlights := by
  refine ⟨?_, rfl, ?_⟩
  · show ((pushHistory t).highlights.filter _) = t.highlights
    rw [pushHistory_highlights]
    refine List.filter_eq_self.mpr ?_
    intro hl hmem
    simpa using h hl hmem
  · show ((pushHistory t).history).head? = some t.highlights
    rw [pushHistory_history]
    rfl

/-- C3 counterexample: `eraseAt` structurally mutates the highlights (it
removes the only highlight) yet pushes no history snapshot, so the
subsequent `undo` does not restore the pre-mutation state. -/
theorem eraseAt_skips_history_counterexample :
    (eraseAt
        { mkTab 1 "doc" with
            highlights := [⟨1, 1, 0, 0, 10, 10, "yellow", 100⟩] } 5 5).highlights =
      [] ∧
    (eraseAt
        { mkTab 1 "doc" with
            highlights := [⟨1, 1, 0, 0, 10, 10, "yellow", 100⟩] } 5 5).history = [] ∧
    (undo (eraseAt
        { mkTab 1 "doc" with
            highlights := [⟨1, 1, 0, 0, 10, 10, "yellow", 100⟩] } 5 5)).highlights ≠
      [⟨1, 1, 0, 0, 10, 10, "yellow", 100⟩] := by
  have h1 : (eraseAt
      { mkTab 1 "doc" with
          highlights := [⟨1, 1, 0, 0, 10, 10, "yellow", 100⟩] } 5 5).highlights = [] := by
    simp [eraseAt, containsPt, mkTab]
    norm_num
  have h2 : (eraseAt
      { mkTab 1 "doc" with
          highlights := [⟨1, 1, 0, 0, 10, 10, "yellow", 100⟩] } 5 5).history = [] := rfl
  refine ⟨h1, h2, ?_⟩
  rw [undo_of_history_nil _ h2, h1]
  simp

/-- C3 amended: adding a highlight on pointer-up, deleting by id, and
clearing the current page each push a deep-copy snapshot of the
pre-mutation highlights before mutating, so one immediate `undo`
restores exactly the pre-mutation highlight sequence; erasing by point
(`eraseAt`), however, mutates the highlights without touching `history`
or `future` at all, so an erase cannot be undone. -/
theorem mutators_record_history_except_erase :
    (∀ (t : Tab) (hid : Nat),
      (undo (deleteHighlight t hid)).highlights = t.highlights) ∧
    (∀ t : Tab, (undo (clearCurrentPage t)).highlights = t.highlights) ∧
    (∀ (t : Tab) (sx sy px py : ℚ) (c : String) (o now : Nat),
      ¬(|px - sx| < MIN_HIGHLIGHT_PX ∨ |py - sy| < MIN_HIGHLIGHT_PX) →
      (undo (addHighlight t sx sy px py c o now)).highlights = t.highlights) ∧
    (∀ (t : Tab) (cx cy : ℚ),
      (eraseAt t cx cy).history = t.history ∧
      (eraseAt t cx cy).future = t.future) := by
  refine ⟨?_, ?_, ?_, fun t cx cy => ⟨rfl, rfl⟩⟩
  · intro t hid
    exact undo_highlights_of_history _ t.highlights _ (pushHistory_history t)
  · intro t
    exact undo_highlights_of_history _ t.highlights _ (pushHistory_history t)
  · intro t sx sy px py c o now hguard
    simp only [addHighlight]
    rw [if_neg hguard]
    exact undo_highlights_of_history _ t.highlights _ (pushHistory_history t)

/-- C3-amended witness: the four clauses evaluated on concrete inputs. -/
theorem mutators_record_history_except_erase_witness :
    (undo (deleteHighlight (mkTab 1 "doc") 5)).highlights =
      (mkTab 1 "doc").highlights ∧
    (undo (clearCurrentPage (mkTab 1 "doc"))).highlights =
      (mkTab 1 "doc").highlights ∧
    (undo (addHighlight (mkTab 1 "doc") 0 0 10 10 "yellow" 100 1000)).highlights =
      (mkTab 1 "doc").highlights ∧
    (eraseAt (mkTab 1 "doc") 5 5).history = (mkTab 1 "doc").history :=
  ⟨mutators_record_history_except_erase.1 _ 5,
   mutators_record_history_except_erase.2.1 _,
   mutators_record_history_except_erase.2.2.1 _ 0 0 10 10 "yellow" 100 1000
     (by norm_num [MIN_HIGHLIGHT_PX]),
   (mutators_record_history_except_erase.2.2.2 (mkTab 1 "doc") 5 5).1⟩

/-- C10 witness: deleting the absent id 2 on a concrete tab. -/
theorem deleteHighlight_missing_id_witness :
    (deleteHighlight
        { mkTab 1 "doc" with
            highlights := [⟨1, 1, 0, 0, 10, 10, "yellow", 100⟩] } 2).highlights =
      [⟨1, 1, 0, 0, 10, 10, "yellow", 100⟩] ∧
    (deleteHighlight
        { mkTab 1 "doc" with
            highlights := [⟨1, 1, 0, 0, 10, 10, "yellow", 100⟩] } 2).future = [] ∧
    (deleteHighlight
        { mkTab 1 "doc" with
            highlights := [⟨1, 1, 0, 0, 10, 10, "yellow", 100⟩] } 2).history.head? =
      some [⟨1, 1, 0, 0, 10, 10, "yellow", 100⟩] :=
  deleteHighlight_missing_id
    { mkTab 1 "doc" with highlights := [⟨1, 1, 0, 0, 10, 10, "yellow", 100⟩] } 2
    (by decide)

/-- `pushHistory` preserves the combined-size bound. -/
theorem pushHistory_histBound (t : Tab) (h : histBound t) :
    histBound (pushHistory t) := by
  unfold histBound MAX_HISTORY_STEPS at h ⊢
  rw [pushHistory_history, pushHistory_future]
  simp only [List.length_cons, List.length_nil, add_zero, MAX_HISTORY_STEPS]
  split
  · have := t.history.length_dropLast
    omega
  · rename_i hc
    omega

/-- Every operation preserves the combined-size bound. -/
theorem applyOp_histBound (t : Tab) (op : Op) (h : histBound t) :
    histBound (applyOp t op) := by
  cases op with
  | add sx sy px py c o now =>
      simp only [applyOp, addHighlight]
      split
      · exact h
      · exact pushHistory_histBound t h
  | erase cx cy => exact h
  | delete hid => exact pushHistory_histBound t h
  | clearCur => exact pushHistory_histBound t h
  | undoOp =>
      obtain ⟨id, name, cp, tp, sc, bs, rot, hls, hist, fut⟩ := t
      unfold histBound at h ⊢
      cases hist with
      | nil => exact h
      | cons top rest =>
          simp only [applyOp, undo, List.length_cons] at h ⊢
          omega
  | redoOp =>
      obtain ⟨id, name, cp, tp, sc, bs, rot, hls, hist, fut⟩ := t
      unfold histBound at h ⊢
      cases fut with
      | nil => exact h
      | cons top rest =>
          simp only [applyOp, redo, List.length_cons] at h ⊢
          omega
  | scale s => exact h
  | rot dir oldW oldH => exact h
  | goto n =>
      simp only [applyOp, gotoPage]
      split
      · exact h
      · exact h

/-- The combined-size bound is preserved by whole operation sequences. -/
theorem applyOps_histBound (ops : List Op) :
    ∀ t : Tab, histBound t → histBound (applyOps t ops) := by
  induction ops with
  | nil => exact fun t h => h
  | cons op rest ih =>
      intro t h
      exact ih (applyOp t op) (applyOp_histBound t op h)

/-- Truncating the right summand of an append before a global `take` of
the same size changes nothing. -/
theorem take_append_take {α : Type} (A B : List α) (n : Nat) :
    (A ++ B.take n).take n = (A ++ B).take n := by
  rw [List.take_append_eq_append_take, List.take_append_eq_append_take,
    List.take_take]
  congr 1
  congr 1
  omega

/-- What a run of record calls leaves on the undo stack: the pushed
snapshots, newest on top, truncated to the `MAX_HISTORY_STEPS` most
recent (with whatever older history fits underneath). -/
theorem recordAll_history (snaps : List (List Highlight)) :
    ∀ t : Tab, t.history.length ≤ MAX_HISTORY_STEPS →
      (recordAll t snaps).history =
        (snaps.reverse ++ t.history).take MAX_HISTORY_STEPS := by
  induction snaps with
  | nil =>
      intro t h
      simpa [recordAll] using (List.take_of_length_le h).symm
  | cons s rest ih =>
      intro t h
      have hph : (pushHistory { t with highlights := s }).history =
          (s :: t.history).take MAX_HISTORY_STEPS := by
        rw [pushHistory_history]
        by_cases hc : MAX_HISTORY_STEPS ≤ t.history.length
        · rw [if_pos hc]
          have hlen : t.history.length = MAX_HISTORY_STEPS := le_antisymm h hc
          rw [List.dropLast_eq_take, hlen]
          show _ = (s :: t.history).take (49 + 1)
          rw [List.take_succ_cons]
          rfl
        · rw [if_neg hc]
          refine (List.take_of_length_le ?_).symm
          simp only [List.length_cons]
          omega
      have hlen2 : (pushHistory { t with highlights := s }).history.length ≤
          MAX_HISTORY_STEPS := by
        rw [hph]
        exact List.length_take_le _ _
      show (recordAll (pushHistory { t with highlights := s }) rest).history = _
      rw [ih _ hlen2, hph, List.reverse_cons, List.append_assoc,
        List.singleton_append]
      exact take_append_take rest.reverse (s :: t.history) MAX_HISTORY_STEPS

/-- C4: starting from a fresh tab, any sequence of operations leaves at
most 50 undo snapshots; a run of 51 record calls retains exactly the 50
most recent snapshots, the oldest evicted; and every record call
empties the redo stack. -/
theorem history_bounded :
    (∀ (t : Tab) (ops : List Op), t.history = [] → t.future = [] →
      (applyOps t ops).history.length ≤ MAX_HISTORY_STEPS) ∧
    (∀ (t : Tab) (snaps : List (List Highlight)), t.history = [] →
      snaps.length = 51 →
      (recordAll t snaps).history = (snaps.drop 1).reverse ∧
      (recordAll t snaps).history.length = MAX_HISTORY_STEPS) ∧
    (∀ t : Tab, (pushHistory t).future = []) := by
  refine ⟨?_, ?_, fun t => rfl⟩
  · intro t ops h1 h2
    have hb : histBound t := by
      unfold histBound
      rw [h1, h2]
      simp [MAX_HISTORY_STEPS]
    have := applyOps_histBound ops t hb
    unfold histBound at this
    omega
  · intro t snaps h1 hlen
    have hr := recordAll_history snaps t (by rw [h1]; simp)
    rw [h1, List.append_nil] at hr
    obtain ⟨s, rest, rfl⟩ : ∃ s rest, snaps = s :: rest := by
      cases snaps with
      | nil => simp at hlen
      | cons s rest => exact ⟨s, rest, rfl⟩
    have hrest : rest.length = 50 := by
      simp only [List.length_cons] at hlen
      omega
    have hrev : ((s :: rest).reverse).take MAX_HISTORY_STEPS = rest.reverse := by
      rw [List.reverse_cons, List.take_append_eq_append_take,
        List.take_of_length_le (by simp [hrest, MAX_HISTORY_STEPS])]
      simp [hrest, MAX_HISTORY_STEPS]
    constructor
    · rw [hr, hrev]
      simp
    · rw [hr, hrev]
      simp [hrest, MAX_HISTORY_STEPS]

/-- C4 witness: the three clauses evaluated at a concrete tab, operation
list, and 51-snapshot run. -/
theorem history_bounded_witness :
    (applyOps (mkTab 1 "doc") [Op.delete 3, Op.undoOp]).history.length ≤
      MAX_HISTORY_STEPS ∧
    (recordAll (mkTab 1 "doc") (List.replicate 51 [])).history =
      ((List.replicate 51 ([] : List Highlight)).drop 1).reverse ∧
    (recordAll (mkTab 1 "doc") (List.replicate 51 [])).history.length =
      MAX_HISTORY_STEPS ∧
    (pushHistory (mkTab 1 "doc")).future = [] :=
  ⟨history_bounded.1 (mkTab 1 "doc") [Op.delete 3, Op.undoOp] rfl rfl,
   (history_bounded.2.1 (mkTab 1 "doc") (List.replicate 51 []) rfl (by simp)).1,
   (history_bounded.2.1 (mkTab 1 "doc") (List.replicate 51 []) rfl (by simp)).2,
   history_bounded.2.2 (mkTab 1 "doc")⟩

/-- `pushHistory` preserves the positivity invariant. -/
theorem pushHistory_goodTab (t : Tab) (h : goodTab t) :
    goodTab (pushHistory t) := by
  obtain ⟨hsc, hhl, hhist, hfut⟩ := h
  refine ⟨hsc, hhl, ?_, by simp [pushHistory_future]⟩
  rw [pushHistory_history]
  intro s hs
  rcases List.mem_cons.mp hs with rfl | hs'
  · exact hhl
  · split at hs'
    · exact hhist s (t.history.dropLast_subset hs')
    · exact hhist s hs'

/-- Every valid operation preserves the positivity invariant. -/
theorem applyOp_goodTab (t : Tab) (op : Op) (hg : goodTab t)
    (hv : op.valid) : goodTab (applyOp t op) := by
  obtain ⟨hsc, hhl, hhist, hfut⟩ := hg
  cases op with
  | add sx sy px py c o now =>
      simp only [applyOp, addHighlight]
      split
      · exact ⟨hsc, hhl, hhist, hfut⟩
      · rename_i hrej
        have hph := pushHistory_goodTab t ⟨hsc, hhl, hhist, hfut⟩
        obtain ⟨hsc', hhl', hhist', hfut'⟩ := hph
        refine ⟨hsc', ?_, hhist', hfut'⟩
        intro hl hmem
        rcases List.mem_append.mp hmem with hold | hnew
        · exact hhl' hl hold
        · rw [List.mem_singleton.mp hnew]
          constructor
          · show (0 : ℚ) < |px - sx|
            have : ¬ |px - sx| < MIN_HIGHLIGHT_PX := fun hc => hrej (Or.inl hc)
            have h5 : (0 : ℚ) < MIN_HIGHLIGHT_PX := by norm_num [MIN_HIGHLIGHT_PX]
            linarith [not_lt.mp this]
          · show (0 : ℚ) < |py - sy|
            have : ¬ |py - sy| < MIN_HIGHLIGHT_PX := fun hc => hrej (Or.inr hc)
            have h5 : (0 : ℚ) < MIN_HIGHLIGHT_PX := by norm_num [MIN_HIGHLIGHT_PX]
            linarith [not_lt.mp this]
  | erase cx cy =>
      refine ⟨hsc, ?_, hhist, hfut⟩
      intro hl hmem
      exact hhl hl (List.mem_of_mem_filter hmem)
  | delete hid =>
      have hph := pushHistory_goodTab t ⟨hsc, hhl, hhist, hfut⟩
      obtain ⟨hsc', hhl', hhist', hfut'⟩ := hph
      refine ⟨hsc', ?_, hhist', hfut'⟩
      intro hl hmem
      exact hhl' hl (List.mem_of_mem_filter hmem)
  | clearCur =>
      have hph := pushHistory_goodTab t ⟨hsc, hhl, hhist, hfut⟩
      obtain ⟨hsc', hhl', hhist', hfut'⟩ := hph
      refine ⟨hsc', ?_, hhist', hfut'⟩
      intro hl hmem
      exact hhl' hl (List.mem_of_mem_filter hmem)
  | undoOp =>
      obtain ⟨id, name, cp, tp, sc, bs, rot, hls, hist, fut⟩ := t
      cases hist with
      | nil => exact ⟨hsc, hhl, hhist, hfut⟩
      | cons top rest =>
          simp only [applyOp, undo]
          refine ⟨hsc, ?_, ?_, ?_⟩
          · exact hhist top (List.mem_cons_self top rest)
          · intro s hs
            exact hhist s (List.mem_cons_of_mem top hs)
          · intro s hs
            rcases List.mem_cons.mp hs with rfl | hs'
            · exact hhl
            · exact hfut s hs'
  | redoOp =>
      obtain ⟨id, name, cp, tp, sc, bs, rot, hls, hist, fut⟩ := t
      cases fut with
      | nil => exact ⟨hsc, hhl, hhist, hfut⟩
      | cons top rest =>
          simp only [applyOp, redo]
          refine ⟨hsc, ?_, ?_, ?_⟩
          · exact hfut top (List.mem_cons_self top rest)
          · intro s hs
            rcases List.mem_cons.mp hs with rfl | hs'
            · exact hhl
            · exact hhist s hs'
          · intro s hs
            exact hfut s (List.mem_cons_of_mem top hs)
  | scale s =>
      have hr : (0 : ℚ) < s / t.scale := div_pos hv hsc
      refine ⟨hv, ?_, hhist, hfut⟩
      intro hl hmem
      simp only [applyOp, setScale] at hmem
      rw [List.mem_map] at hmem
      obtain ⟨hl0, hmem0, rfl⟩ := hmem
      obtain ⟨hw, hh⟩ := hhl hl0 hmem0
      exact ⟨mul_pos hw hr, mul_pos hh hr⟩
  | rot dir oldW oldH =>
      refine ⟨hsc, ?_, hhist, hfut⟩
      intro hl hmem
      simp only [applyOp, rotate] at hmem
      rw [List.mem_map] at hmem
      obtain ⟨hl0, hmem0, rfl⟩ := hmem
      obtain ⟨hw, hh⟩ := hhl hl0 hmem0
      cases dir with
      | cw => exact ⟨hh, hw⟩
      | ccw => exact ⟨hh, hw⟩
  | goto n =>
      simp only [applyOp, gotoPage]
      split
      · exact ⟨hsc, hhl, hhist, hfut⟩
      · exact ⟨hsc, hhl, hhist, hfut⟩

/-- C6: a drag with either side under `MIN_HIGHLIGHT_PX` is rejected
without any mutation; a surviving add only appends rectangles at least
`MIN_HIGHLIGHT_PX` on both sides; and across every valid operation
sequence all stored highlights keep strictly positive width and
height. -/
theorem add_min_size_and_positive :
    (∀ (t : Tab) (sx sy px py : ℚ) (c : String) (o now : Nat),
      |px - sx| < MIN_HIGHLIGHT_PX ∨ |py - sy| < MIN_HIGHLIGHT_PX →
      addHighlight t sx sy px py c o now = t) ∧
    (∀ (t : Tab) (sx sy px py : ℚ) (c : String) (o now : Nat),
      ∀ hl ∈ (addHighlight t sx sy px py c o now).highlights,
        hl ∈ t.highlights ∨
          (MIN_HIGHLIGHT_PX ≤ hl.w ∧ MIN_HIGHLIGHT_PX ≤ hl.h)) ∧
    (∀ (t : Tab) (ops : List Op), goodTab t → (∀ op ∈ ops, op.valid) →
      ∀ hl ∈ (applyOps t ops).highlights, 0 < hl.w ∧ 0 < hl.h) := by
  refine ⟨?_, ?_, ?_⟩
  · intro t sx sy px py c o now hrej
    simp only [addHighlight]
    rw [if_pos hrej]
  · intro t sx sy px py c o now hl hmem
    simp only [addHighlight] at hmem
    split at hmem
    · exact Or.inl hmem
    · rename_i hrej
      rcases List.mem_append.mp hmem with hold | hnew
      · exact Or.inl hold
      · right
        rw [List.mem_singleton.mp hnew]
        push_neg at hrej
        exact ⟨hrej.1, hrej.2⟩
  · have hmain : ∀ (ops : List Op) (t : Tab), goodTab t →
        (∀ op ∈ ops, op.valid) → goodTab (applyOps t ops) := by
      intro ops
      induction ops with
      | nil => exact fun t hg _ => hg
      | cons op rest ih =>
          intro t hg hv
          exact ih (applyOp t op)
            (applyOp_goodTab t op hg (hv op (List.mem_cons_self op rest)))
            (fun op' hm => hv op' (List.mem_cons_of_mem op hm))
    intro t ops hg hv
    exact fun hl hmem => (hmain ops t hg hv).2.1 hl hmem

/-- C6 witness: the three clauses at concrete inputs — a 3-pixel drag is
rejected, a 10-pixel drag stores only large-enough rectangles, and a
fresh tab stays positive under a delete. -/
theorem add_min_size_and_positive_witness :
    addHighlight (mkTab 1 "doc") 0 0 3 10 "yellow" 100 1000 = mkTab 1 "doc" ∧
    (∀ hl ∈ (addHighlight (mkTab 1 "doc") 0 0 10 10 "yellow" 100 1000).highlights,
      hl ∈ (mkTab 1 "doc").highlights ∨
        (MIN_HIGHLIGHT_PX ≤ hl.w ∧ MIN_HIGHLIGHT_PX ≤ hl.h)) ∧
    (∀ hl ∈ (applyOps (mkTab 1 "doc") [Op.delete 3]).highlights,
      0 < hl.w ∧ 0 < hl.h) :=
  ⟨add_min_size_and_positive.1 (mkTab 1 "doc") 0 0 3 10 "yellow" 100 1000
      (Or.inl (by norm_num [MIN_HIGHLIGHT_PX])),
   add_min_size_and_positive.2.1 (mkTab 1 "doc") 0 0 10 10 "yellow" 100 1000,
   add_min_size_and_positive.2.2 (mkTab 1 "doc") [Op.delete 3]
      ⟨by norm_num [mkTab, PDF_RENDER_SCALE], by simp [mkTab], by simp [mkTab],
        by simp [mkTab]⟩
      (by simp [Op.valid])⟩

/-- C8 counterexample: ids come from `Date.now()`, so two highlights
created in the same millisecond — here both at reading 1000 — are two
distinct stored rectangles with equal ids, refuting both uniqueness and
strict growth of ids in creation order. -/
theorem duplicate_id_counterexample :
    (addHighlight (addHighlight (mkTab 1 "doc") 0 0 10 10 "yellow" 100 1000)
        20 20 40 40 "green" 100 1000).highlights.map Highlight.id = [1000, 1000] ∧
    (addHighlight (addHighlight (mkTab 1 "doc") 0 0 10 10 "yellow" 100 1000)
        20 20 40 40 "green" 100 1000).highlights.map Highlight.x = [0, 20] ∧
    ¬ ((addHighlight (addHighlight (mkTab 1 "doc") 0 0 10 10 "yellow" 100 1000)
        20 20 40 40 "green" 100 1000).highlights.map Highlight.id).Nodup ∧
    ¬ List.Pairwise (fun a b => a.id < b.id)
        (addHighlight (addHighlight (mkTab 1 "doc") 0 0 10 10 "yellow" 100 1000)
          20 20 40 40 "green" 100 1000).highlights := by
  have h : (addHighlight (addHighlight (mkTab 1 "doc") 0 0 10 10 "yellow" 100 1000)
        20 20 40 40 "green" 100 1000).highlights
      = [⟨1000, 1, 0, 0, 10, 10, "yellow", 100⟩,
         ⟨1000, 1, 20, 20, 20, 20, "green", 100⟩] := by
    norm_num [addHighlight, pushHistory, mkTab, MIN_HIGHLIGHT_PX, abs_of_nonneg]
  refine ⟨by rw [h]; rfl, by rw [h]; rfl, by rw [h]; decide, ?_⟩
  rw [h]
  intro hc
  have h10 := (List.pairwise_cons.mp hc).1 _ (List.mem_singleton_self _)
  simp at h10

/-- The per-creation id monotonicity, by induction over the creation
sequence: if the stored ids are already strictly increasing and below
every upcoming clock reading, and the clock readings strictly increase,
the stored ids stay strictly increasing (in list = creation order). -/
theorem applyAdds_pairwise (evs : List AddEv) :
    ∀ t : Tab,
      List.Pairwise (fun a b => a.id < b.id) t.highlights →
      (∀ hl ∈ t.highlights, ∀ e ∈ evs, hl.id < e.now) →
      List.Pairwise (fun a b : AddEv => a.now < b.now) evs →
      List.Pairwise (fun a b => a.id < b.id) (applyAdds t evs).highlights := by
  induction evs with
  | nil => exact fun t hp _ _ => hp
  | cons e rest ih =>
      intro t hp hlt htimes
      refine ih (addHighlight t e.sx e.sy e.px e.py e.color e.opacity e.now)
        ?_ ?_ (List.pairwise_cons.mp htimes).2
      · simp only [addHighlight, pushHistory_highlights]
        split
        · exact hp
        · rw [List.pairwise_append]
          refine ⟨hp, List.pairwise_singleton _ _, ?_⟩
          intro a ha b hb
          rw [List.mem_singleton] at hb
          subst hb
          exact hlt a ha e (List.mem_cons_self e rest)
      · intro hl hmem e' hm'
        simp only [addHighlight, pushHistory_highlights] at hmem
        split at hmem
        · exact hlt hl hmem e' (List.mem_cons_of_mem e hm')
        · rcases List.mem_append.mp hmem with hold | hnew
          · exact hlt hl hold e' (List.mem_cons_of_mem e hm')
          · rw [List.mem_singleton] at hnew
            subst hnew
            exact (List.pairwise_cons.mp htimes).1 e' hm'

/-- C8 amended: each highlight id is the `Date.now()` reading at its
creation; provided those readings strictly increase across the creation
sequence (and exceed every id already stored), the stored ids are
strictly increasing in creation order and pairwise distinct. Without
that clock assumption two same-millisecond creations share an id. -/
theorem ids_strictly_increasing (t : Tab) (evs : List AddEv)
    (hp : List.Pairwise (fun a b => a.id < b.id) t.highlights)
    (hlt : ∀ hl ∈ t.highlights, ∀ e ∈ evs, hl.id < e.now)
    (htimes : List.Pairwise (fun a b : AddEv => a.now < b.now) evs) :
    List.Pairwise (fun a b => a.id < b.id) (applyAdds t evs).highlights ∧
    ((applyAdds t evs).highlights.map Highlight.id).Nodup := by
  have hpw := applyAdds_pairwise evs t hp hlt htimes
  exact ⟨hpw, List.Pairwise.map _ (fun a b hab => Nat.ne_of_lt hab) hpw⟩

/-- C8-amended witness: two creations with clock readings 1000 then 1001
on a fresh tab yield strictly increasing, distinct ids. -/
theorem ids_strictly_increasing_witness :
    List.Pairwise (fun a b => a.id < b.id)
      (applyAdds (mkTab 1 "doc")
        [⟨0, 0, 10, 10, "yellow", 100, 1000⟩,
         ⟨20, 20, 40, 40, "green", 100, 1001⟩]).highlights ∧
    ((applyAdds (mkTab 1 "doc")
        [⟨0, 0, 10, 10, "yellow", 100, 1000⟩,
         ⟨20, 20, 40, 40, "green", 100, 1001⟩]).highlights.map Highlight.id).Nodup :=
  ids_strictly_increasing (mkTab 1 "doc")
    [⟨0, 0, 10, 10, "yellow", 100, 1000⟩, ⟨20, 20, 40, 40, "green", 100, 1001⟩]
    (by simp [mkTab]) (by simp [mkTab])
    (by simp [List.pairwise_cons])

/-- C9 counterexample: with sessions 1, 2, 3 and session 2 active,
closing session 2 activates session 3 — the following session — not
session 1, the one with the next-lowest index as the claim states. -/
theorem closeTab_activates_successor_counterexample :
    (closeTab
        { tabs := [mkTab 1 "a", mkTab 2 "b", mkTab 3 "c"],
          activeTabId := some 2 } 2).activeTabId = some 3 ∧
    (closeTab
        { tabs := [mkTab 1 "a", mkTab 2 "b", mkTab 3 "c"],
          activeTabId := some 2 } 2).activeTabId ≠ some 1 ∧
    (closeTab
        { tabs := [mkTab 1 "a", mkTab 2 "b", mkTab 3 "c"],
          activeTabId := some 2 } 2).tabs.map Tab.id = [1, 3] := by
  refine ⟨rfl, ?_, rfl⟩
  intro hc
  have h3 : (closeTab
      { tabs := [mkTab 1 "a", mkTab 2 "b", mkTab 3 "c"],
        activeTabId := some 2 } 2).activeTabId = some 3 := rfl
  rw [h3] at hc
  exact absurd hc (by simp)

/-- `findIdx?` only returns indices inside the list. -/
theorem findIdx?_lt_length {α : Type} {l : List α} {p : α → Bool} {i : Nat}
    (h : l.findIdx? p = some i) : i < l.length :=
  (List.findIdx?_eq_some_iff_findIdx_eq.mp h).1

/-- C9 amended: closing a session removes it from the registry; when
sessions remain, the session immediately after the closed one in order
(or the last remaining session, when the closed one was last) becomes
active — this happens whether or not the closed session was the active
one; when the registry becomes empty, no session is active. -/
theorem closeTab_spec (reg : Registry) (i idx : Nat)
    (hfind : reg.tabs.findIdx? (fun t => t.id == i) = some idx) :
    (closeTab reg i).tabs = reg.tabs.eraseIdx idx ∧
    (reg.tabs.length = 1 → (closeTab reg i).activeTabId = none) ∧
    (idx + 1 < reg.tabs.length →
      (closeTab reg i).activeTabId =
        some (reg.tabs.getD (idx + 1) default).id) ∧
    (idx + 1 = reg.tabs.length → 1 ≤ idx →
      (closeTab reg i).activeTabId =
        some (reg.tabs.getD (idx - 1) default).id) := by
  have hidx : idx < reg.tabs.length := findIdx?_lt_length hfind
  have hlen : (reg.tabs.eraseIdx idx).length = reg.tabs.length - 1 := by
    rw [List.length_eraseIdx]
    simp [hidx]
  refine ⟨?_, ?_, ?_, ?_⟩
  · simp only [closeTab, hfind]
    split <;> rfl
  · intro h1
    simp only [closeTab, hfind]
    rw [if_pos (by omega)]
  · intro hsucc
    have hne : ¬ (reg.tabs.eraseIdx idx).length = 0 := by omega
    simp only [closeTab, hfind]
    rw [if_neg hne]
    simp only [activateTab]
    have hmin : min idx ((reg.tabs.eraseIdx idx).length - 1) = idx := by omega
    rw [hmin]
    have hb : idx < (reg.tabs.eraseIdx idx).length := by omega
    have hb2 : idx + 1 < reg.tabs.length := hsucc
    rw [List.getD_eq_getElem _ _ hb, List.getD_eq_getElem _ _ hb2,
      List.getElem_eraseIdx_of_ge reg.tabs idx idx hb (le_refl idx)]
  · intro hlast hge
    have hne : ¬ (reg.tabs.eraseIdx idx).length = 0 := by omega
    simp only [closeTab, hfind]
    rw [if_neg hne]
    simp only [activateTab]
    have hmin : min idx ((reg.tabs.eraseIdx idx).length - 1) = idx - 1 := by
      omega
    rw [hmin]
    have hb : idx - 1 < (reg.tabs.eraseIdx idx).length := by omega
    have hb2 : idx - 1 < reg.tabs.length := by omega
    rw [List.getD_eq_getElem _ _ hb, List.getD_eq_getElem _ _ hb2,
      List.getElem_eraseIdx_of_lt reg.tabs idx (idx - 1) hb (by omega)]

/-- C9-amended witness: the spec of `closeTab` evaluated on the
three-session registry, closing the middle session. -/
theorem closeTab_spec_witness :
    (closeTab
        { tabs := [mkTab 1 "a", mkTab 2 "b", mkTab 3 "c"],
          activeTabId := some 2 } 2).tabs =
      ([mkTab 1 "a", mkTab 2 "b", mkTab 3 "c"].eraseIdx 1) ∧
    (closeTab
        { tabs := [mkTab 1 "a", mkTab 2 "b", mkTab 3 "c"],
          activeTabId := some 2 } 2).activeTabId =
      some (([mkTab 1 "a", mkTab 2 "b", mkTab 3 "c"].getD 2 default).id) := by
  have h := closeTab_spec
    { tabs := [mkTab 1 "a", mkTab 2 "b", mkTab 3 "c"], activeTabId := some 2 }
    2 1 rfl
  exact ⟨h.1, h.2.2.1 (by simp)⟩

end AnnotaPDF
